import Mathlib

/-!
Verification of the Tower of Hanoi terminal visualizer (src/tower-of-hanoi.c).

The C program is embedded shallowly: structs become structures, the pole
array becomes a function on Fin 3, C int/long values that stay nonnegative
become Nat, values that can go negative become Int, and the fatal error
paths (print to stderr, exit 1) become the error side of Except.  A pole's
disks array is modelled by its occupied prefix (indices 0 .. num_disk - 1,
bottom first); slots at or above num_disk are never read by the program.
-/

namespace Hanoi

/-- RGB color triple; the C struct Color stores three ints, kept in 0..255 by the loader. -/
structure Color where
  r : Int
  g : Int
  b : Int
  deriving DecidableEq, Repr

/-- Default color, used only as the unread default of list lookups. -/
def defaultColor : Color := { r := 0, g := 0, b := 0 }

/-- Colormap: ordered RGB samples.  The C struct also stores a length field that always
equals the number of samples, so the sample list alone represents both. -/
structure ColorMap where
  colors : List Color
  deriving DecidableEq, Repr

/-- The C field colormap.length. -/
def ColorMap.length (m : ColorMap) : Nat := m.colors.length

/-- Disk: a size and a color, as the C struct Disk. -/
structure Disk where
  size : Nat
  color : Color
  deriving DecidableEq, Repr

/-- Default disk, used only as the unread default of list lookups. -/
def defaultDisk : Disk := { size := 0, color := defaultColor }

/-- Pole: capacity (the C field size) together with the occupied slots of the C disks
array, index 0 = bottom.  The list length is the C field num_disk. -/
structure Pole where
  size : Nat
  disks : List Disk
  deriving DecidableEq, Repr

/-- The C struct GameState: the three poles, num_layers, and the move counter
(a C long; it grows by one per rendered move, modelled as Nat). -/
structure GameState where
  poles : Fin 3 → Pole
  num_layers : Nat
  num_moves : Nat

/-- get_spare: first index in 0,1,2 that differs from both arguments, exactly as the
C loop scans i = 0,1,2.  With three poles and two arguments the scan always succeeds,
so the unreachable error exit at the end of the C function has no counterpart. -/
def get_spare (pole1 pole2 : Fin 3) : Fin 3 :=
  if 0 ≠ pole1 ∧ 0 ≠ pole2 then 0
  else if 1 ≠ pole1 ∧ 1 ≠ pole2 then 1
  else 2

/-- The three fatal error exits of move_disk: empty source pole, full destination
pole, and the post-move larger-on-smaller check. -/
inductive MoveErr
  | srcEmpty
  | destFull
  | illegal
  deriving DecidableEq, Repr

/-- move_disk: moves the top disk of pole src onto pole dest, incrementing the move
counter.  Each C error path redraws the board, prints to stderr and exits 1; it is
modelled as an error value carrying the state the board is redrawn from.  The write
`dest_pole->disks[dest_pole->num_disk] = ...; dest_pole->num_disk++` is the append,
and `src_pole->num_disk--` is the dropLast; both go through the pole map
sequentially so that a call with src = dest behaves exactly as the aliased C
pointers do.  The final redraw of the successful path is modelled in run_out. -/
def move_disk (gs : GameState) (src dest : Fin 3) : Except (MoveErr × GameState) GameState :=
  if (gs.poles src).disks.length ≤ 0 then
    .error (.srcEmpty, gs)
  else if (gs.poles dest).disks.length ≥ (gs.poles dest).size then
    .error (.destFull, gs)
  else
    let d := (gs.poles src).disks.getLastD defaultDisk
    let p1 := Function.update gs.poles dest
      { gs.poles dest with disks := (gs.poles dest).disks ++ [d] }
    let p2 := Function.update p1 src
      { p1 src with disks := (p1 src).disks.dropLast }
    let gs1 : GameState :=
      { poles := p2, num_layers := gs.num_layers, num_moves := gs.num_moves + 1 }
    if 1 < (p2 dest).disks.length then
      let top := (p2 dest).disks.getLastD defaultDisk
      let under := (p2 dest).disks.dropLast.getLastD defaultDisk
      if under.size < top.size then .error (.illegal, gs1) else .ok gs1
    else
      .ok gs1

/-- The sequence of (src, dest) pairs with which move_stack calls move_disk, in call
order.  The C function recurses on size; the case size = 0 never arises (solve_hanoi
and the recursive calls keep size at least 1) and is mapped to the empty sequence.
The middle recursive call move_stack(1, src, dest) of the C code evaluates to the
single move (src, dest) by the second equation and is written inline so that the
recursion stays structural. -/
def move_stack : Nat → Fin 3 → Fin 3 → List (Fin 3 × Fin 3)
  | 0, _, _ => []
  | 1, src, dest => [(src, dest)]
  | size + 2, src, dest =>
    let spare := get_spare src dest
    move_stack (size + 1) src spare ++ [(src, dest)] ++ move_stack (size + 1) spare dest

/-- solve_hanoi calls move_stack(game_state, num_layers, 0, NUM_POLES - 1). -/
def solve_hanoi (num_layers : Nat) : List (Fin 3 × Fin 3) :=
  move_stack num_layers 0 2

/-- Executes a list of moves in order through move_disk, stopping at the first
error exactly as the exiting C program would. -/
def run (gs : GameState) : List (Fin 3 × Fin 3) → Except (MoveErr × GameState) GameState
  | [] => .ok gs
  | m :: ms =>
    match move_disk gs m.1 m.2 with
    | .ok gs1 => run gs1 ms
    | .error e => .error e

/-- The colormap_increment computed at the top of initialize_poles: length divided by
num_layers - 1 (0 when num_layers = 1 to avoid the division), then clamped below by 1. -/
def colormap_increment (num_layers len : Nat) : Nat :=
  let inc := if num_layers = 1 then 0 else len / (num_layers - 1)
  if inc < 1 then 1 else inc

/-- The colormap index the fill loop of initialize_poles computes for disk i:
increment * i, replaced by length - 1 whenever it is at least length.  The C ints can
produce -1 here (length = 0), so the result is an Int. -/
def colormap_index (num_layers len : Nat) (i : Nat) : Int :=
  let idx : Int := (colormap_increment num_layers len : Int) * i
  if (len : Int) ≤ idx then (len : Int) - 1 else idx

/-- The C array read colormap.colors[idx]: defined exactly for 0 ≤ idx < length;
none models an out-of-bounds access, which is undefined behavior in C. -/
def colormap_at (m : ColorMap) (idx : Int) : Option Color :=
  if 0 ≤ idx then m.colors.get? idx.toNat else none

/-- The fill loop of initialize_poles over the given disk indices: disk i gets size
num_layers - i and the colormap sample at colormap_index.  none models the loop
performing an out-of-bounds colormap access. -/
def build_disks (num_layers : Nat) (cmap : ColorMap) : List Nat → Option (List Disk)
  | [] => some []
  | i :: is =>
    match colormap_at cmap (colormap_index num_layers cmap.length i), build_disks num_layers cmap is with
    | some c, some ds => some ({ size := num_layers - i, color := c } :: ds)
    | _, _ => none

/-- initialize_poles: all three poles get capacity num_layers and start empty, then
pole 0 is filled with disks of sizes num_layers down to 1 colored through the
colormap.  none models an out-of-bounds colormap access during the fill loop. -/
def initialize_poles (num_layers : Nat) (colormap : ColorMap) : Option (Fin 3 → Pole) :=
  match build_disks num_layers colormap (List.range num_layers) with
  | none => none
  | some ds => some fun p =>
      if p = 0 then { size := num_layers, disks := ds } else { size := num_layers, disks := [] }

/-- The board state main builds before drawing and solving: initialize_poles plus
num_moves = 0. -/
def init_game (num_layers : Nat) (colormap : ColorMap) : Option GameState :=
  match initialize_poles num_layers colormap with
  | none => none
  | some ps => some { poles := ps, num_layers := num_layers, num_moves := 0 }

/-- Disk sizes on pole p, bottom first. -/
def pole_sizes (gs : GameState) (p : Fin 3) : List Nat :=
  (gs.poles p).disks.map Disk.size

/-- The stacking invariant: on every pole, sizes strictly decrease from bottom to top. -/
def stacking_ok (gs : GameState) : Prop :=
  ∀ p : Fin 3, (pole_sizes gs p).Pairwise (fun a b => b < a)

/-- All disk sizes on the board, pole 0 then pole 1 then pole 2. -/
def all_sizes (gs : GameState) : List Nat :=
  pole_sizes gs 0 ++ (pole_sizes gs 1 ++ pole_sizes gs 2)

/-- Conservation: the board's disk sizes are a permutation of 1, ..., num_layers. -/
def conservation (gs : GameState) : Prop :=
  (all_sizes gs).Perm ((List.range gs.num_layers).map (· + 1))

/-- Sizes num_layers down to 1, the bottom-to-top size sequence of a freshly
filled pole 0. -/
def descList (k : Nat) : List Nat :=
  (List.range k).map (k - ·)

instance : DecidablePred stacking_ok := fun gs =>
  inferInstanceAs (Decidable (∀ p : Fin 3, (pole_sizes gs p).Pairwise (fun a b => b < a)))

instance : DecidablePred conservation := fun gs =>
  inferInstanceAs (Decidable ((all_sizes gs).Perm _))

theorem get_spare_spec : ∀ a b : Fin 3, a ≠ b →
    get_spare a b ≠ a ∧ get_spare a b ≠ b ∧
    get_spare a (get_spare a b) = b ∧ get_spare (get_spare a b) b = a := by decide

theorem get_spare_cases : ∀ a b : Fin 3, a ≠ b →
    ∀ c : Fin 3, c = a ∨ c = b ∨ c = get_spare a b := by decide

theorem descList_succ (k : Nat) : descList (k + 1) = (k + 1) :: descList k := by
  unfold descList
  rw [List.range_succ_eq_map]
  simp only [List.map_cons, List.map_map, Nat.sub_zero]
  refine congrArg _ (List.map_congr_left fun i _ => ?_)
  simp only [Function.comp_apply]
  omega

theorem mem_descList {k a : Nat} : a ∈ descList k ↔ 1 ≤ a ∧ a ≤ k := by
  unfold descList
  simp only [List.mem_map, List.mem_range]
  constructor
  · rintro ⟨i, hi, rfl⟩
    omega
  · rintro ⟨h1, h2⟩
    exact ⟨k - a, by omega, by omega⟩

theorem descList_length (k : Nat) : (descList k).length = k := by
  simp [descList]

theorem descList_pairwise (k : Nat) : (descList k).Pairwise (fun a b => b < a) := by
  induction k with
  | zero => simp [descList]
  | succ n ih =>
    rw [descList_succ]
    refine List.Pairwise.cons (fun a ha => ?_) ih
    have := mem_descList.mp ha
    omega

theorem descList_perm (k : Nat) : (descList k).Perm ((List.range k).map (· + 1)) := by
  induction k with
  | zero => simp [descList]
  | succ n ih =>
    rw [descList_succ, List.range_succ, List.map_append]
    refine (ih.cons (n + 1)).trans ?_
    simpa using (List.perm_append_singleton (n + 1) ((List.range n).map (· + 1))).symm

theorem run_append (gs : GameState) (ms1 ms2 : List (Fin 3 × Fin 3)) :
    run gs (ms1 ++ ms2) = match run gs ms1 with
      | .ok g => run g ms2
      | .error e => .error e := by
  induction ms1 generalizing gs with
  | nil => rfl
  | cons m ms ih =>
    cases hm : move_disk gs m.1 m.2 with
    | ok g1 =>
      simp only [List.cons_append, run, hm]
      exact ih g1
    | error e =>
      simp only [List.cons_append, run, hm]

theorem run_append_ok {gs g : GameState} {ms1 : List (Fin 3 × Fin 3)} (h : run gs ms1 = .ok g)
    (ms2 : List (Fin 3 × Fin 3)) : run gs (ms1 ++ ms2) = run g ms2 := by
  rw [run_append, h]

theorem run_prefix_ok {gs g : GameState} {ms1 ms2 : List (Fin 3 × Fin 3)}
    (h : run gs (ms1 ++ ms2) = .ok g) :
    ∃ g1, run gs ms1 = .ok g1 ∧ run g1 ms2 = .ok g := by
  rw [run_append] at h
  cases hr : run gs ms1 with
  | ok g1 =>
    rw [hr] at h
    exact ⟨g1, rfl, h⟩
  | error e =>
    rw [hr] at h
    exact absurd h (by simp)

/-- C3: the solver's emitted move sequence is the depth-first left-to-right traversal of
the classical recursion (subtower to the spare, one move, subtower onto the target),
where the spare is the unique peg distinct from source and destination; for N = 2 the
sequence is (0,1), (0,2), (1,2) and for N = 3 it is
(0,2), (0,1), (2,1), (0,2), (1,0), (1,2), (0,2). -/
theorem hanoi_C3 :
    solve_hanoi 2 = [(0, 1), (0, 2), (1, 2)] ∧
    solve_hanoi 3 = [(0, 2), (0, 1), (2, 1), (0, 2), (1, 0), (1, 2), (0, 2)] ∧
    (∀ (k : Nat) (src dest : Fin 3),
      move_stack (k + 2) src dest =
        move_stack (k + 1) src (get_spare src dest) ++ [(src, dest)] ++
          move_stack (k + 1) (get_spare src dest) dest) ∧
    (∀ src dest spare : Fin 3, src ≠ dest →
      (spare ≠ src ∧ spare ≠ dest ↔ spare = get_spare src dest)) := by
  refine ⟨by decide, by decide, fun k src dest => rfl, by decide⟩

/-- Witness for C3: the recursion equation and the spare characterization at concrete pegs. -/
theorem hanoi_C3_witness :
    move_stack 3 0 1 = move_stack 2 0 (get_spare 0 1) ++ [(0, 1)] ++ move_stack 2 (get_spare 0 1) 1 ∧
    ((2 : Fin 3) ≠ 0 ∧ (2 : Fin 3) ≠ 1 ↔ (2 : Fin 3) = get_spare 0 1) :=
  ⟨hanoi_C3.2.2.1 1 0 1, hanoi_C3.2.2.2 0 1 2 (by decide)⟩



theorem getLastD_mem {α : Type _} : ∀ (l : List α) (dflt : α), l ≠ [] → l.getLastD dflt ∈ l := by
  intro l
  induction l with
  | nil => intro _ h; exact absurd rfl h
  | cons a t ih =>
    intro dflt _
    cases t with
    | nil => simp [List.getLastD]
    | cons b t2 =>
      rw [List.getLastD_cons]
      exact List.mem_cons_of_mem a (ih a (by simp))

theorem move_disk_ok {gs : GameState} {src dest : Fin 3} (hsd : src ≠ dest)
    {b : List Disk} {d : Disk} (hsrc : (gs.poles src).disks = b ++ [d])
    (hcap : (gs.poles dest).disks.length < (gs.poles dest).size)
    (hto : ∀ u ∈ (gs.poles dest).disks, d.size < u.size) :
    move_disk gs src dest = .ok
      { poles := Function.update (Function.update gs.poles dest
          { gs.poles dest with disks := (gs.poles dest).disks ++ [d] }) src
          { gs.poles src with disks := b },
        num_layers := gs.num_layers,
        num_moves := gs.num_moves + 1 } := by
  have h1 : ¬ ((gs.poles src).disks.length ≤ 0) := by
    rw [hsrc]; simp
  have h2 : ¬ ((gs.poles dest).disks.length ≥ (gs.poles dest).size) := by omega
  simp only [move_disk]
  rw [if_neg h1, if_neg h2]
  rw [hsrc, List.getLastD_concat]
  rw [Function.update_noteq hsd]
  rw [hsrc, List.dropLast_concat]
  rw [Function.update_noteq (Ne.symm hsd), Function.update_same]
  cases hD : (gs.poles dest).disks with
  | nil =>
    rw [if_neg (by simp)]
  | cons x xs =>
    rw [hD] at hto
    rw [if_pos (by simp), List.dropLast_concat, List.getLastD_concat]
    have hunder : (x :: xs).getLastD defaultDisk ∈ x :: xs := getLastD_mem _ _ (by simp)
    have hlt := hto _ hunder
    rw [if_neg (Nat.lt_asymm hlt)]



theorem run_move_stack : ∀ (n : Nat) (src dest : Fin 3), src ≠ dest →
    ∀ (gs : GameState) (b t : List Disk),
    1 ≤ n →
    (gs.poles src).disks = b ++ t →
    t.length = n →
    ((t.map Disk.size).Pairwise fun a c => c < a) →
    (∀ d ∈ b, ∀ e ∈ t, e.size < d.size) →
    (∀ d ∈ (gs.poles dest).disks, ∀ e ∈ t, e.size < d.size) →
    (2 ≤ n → ∀ d ∈ (gs.poles (get_spare src dest)).disks, ∀ e ∈ t, e.size < d.size) →
    (gs.poles src).disks.length ≤ (gs.poles src).size →
    (gs.poles dest).disks.length + n ≤ (gs.poles dest).size →
    (2 ≤ n → (gs.poles (get_spare src dest)).disks.length + (n - 1) ≤ (gs.poles (get_spare src dest)).size) →
    ∃ gsf, run gs (move_stack n src dest) = .ok gsf ∧
      gsf.poles src = { gs.poles src with disks := b } ∧
      gsf.poles dest = { gs.poles dest with disks := (gs.poles dest).disks ++ t } ∧
      (∀ p : Fin 3, p ≠ src → p ≠ dest → gsf.poles p = gs.poles p) ∧
      gsf.num_layers = gs.num_layers ∧
      gsf.num_moves = gs.num_moves + (2 ^ n - 1) := by
  intro n
  induction n using Nat.strong_induction_on with
  | _ n IH =>
    intro src dest hsd gs b t hn hsrc hlen hdec hb hdest hspare hcsrc hcdest hcspare
    match n, hn with
    | 1, _ =>
      -- base case: t is a single disk and move_stack emits the single move (src, dest)
      match t, hlen with
      | [d], _ =>
        have hmv := move_disk_ok hsd hsrc (by omega)
          (fun u hu => hdest u hu d (by simp))
        refine ⟨⟨Function.update (Function.update gs.poles dest
            { gs.poles dest with disks := (gs.poles dest).disks ++ [d] }) src
            { gs.poles src with disks := b }, gs.num_layers, gs.num_moves + 1⟩,
          ?_, ?_, ?_, ?_, ?_, ?_⟩
        · show (match move_disk gs src dest with
            | .ok gs1 => run gs1 []
            | .error e => .error e) = _
          rw [hmv]
          rfl
        · exact Function.update_same _ _ _
        · exact (Function.update_noteq (Ne.symm hsd) _ _).trans (Function.update_same _ _ _)
        · intro p hps hpd
          exact (Function.update_noteq hps _ _).trans (Function.update_noteq hpd _ _)
        · rfl
        · norm_num
    | (k + 2), _ =>
      obtain ⟨d0, t1, rfl⟩ : ∃ d0 t1, t = d0 :: t1 := by
        cases t with
        | nil => simp at hlen
        | cons a l => exact ⟨a, l, rfl⟩
      have hlen1 : t1.length = k + 1 := by simpa using hlen
      obtain ⟨hsp_src, hsp_dest, hsp2, hsp3⟩ := get_spare_spec src dest hsd
      have hdec2 : (∀ e ∈ t1, e.size < d0.size) ∧
          (t1.map Disk.size).Pairwise (fun a c => c < a) := by simpa using hdec
      have hd0_gt : ∀ e ∈ t1, e.size < d0.size := hdec2.1
      -- first recursive call: move the subtower of k+1 disks from src to the spare
      obtain ⟨gs1, hrun1, hg1src, hg1sp, hg1other, hg1layers, hg1moves⟩ :=
        IH (k + 1) (by omega) src (get_spare src dest) (Ne.symm hsp_src) gs (b ++ [d0]) t1
          (by omega)
          (hsrc.trans (List.append_cons b d0 t1))
          hlen1
          hdec2.2
          (by
            intro d hd e he
            rcases List.mem_append.mp hd with h | h
            · exact hb d h e (List.mem_cons_of_mem _ he)
            · have : d = d0 := by simpa using h
              subst this
              exact hd0_gt e he)
          (fun d hd e he => hspare (by omega) d hd e (List.mem_cons_of_mem _ he))
          (by
            intro _ d hd e he
            rw [hsp2] at hd
            exact hdest d hd e (List.mem_cons_of_mem _ he))
          hcsrc
          (by
            have h := hcspare (by omega)
            have hsub : k + 2 - 1 = k + 1 := rfl
            rw [hsub] at h
            exact h)
          (by
            intro _
            rw [hsp2]
            show (gs.poles dest).disks.length + k ≤ (gs.poles dest).size
            omega)
      have hg1dest : gs1.poles dest = gs.poles dest :=
        hg1other dest (Ne.symm hsd) (Ne.symm hsp_dest)
      -- middle move: the largest disk of the subtower goes from src to dest
      have hmv2 := @move_disk_ok gs1 src dest hsd b d0
        (by rw [hg1src])
        (by rw [hg1dest]; omega)
        (by rw [hg1dest]; exact fun u hu => hdest u hu d0 (List.mem_cons_self _ _))
      -- projections of the state after the middle move
      have hg2src : (Function.update (Function.update gs1.poles dest
          { gs1.poles dest with disks := (gs1.poles dest).disks ++ [d0] }) src
          { gs1.poles src with disks := b }) src = { gs1.poles src with disks := b } :=
        Function.update_same _ _ _
      have hg2dest : (Function.update (Function.update gs1.poles dest
          { gs1.poles dest with disks := (gs1.poles dest).disks ++ [d0] }) src
          { gs1.poles src with disks := b }) dest
          = { gs1.poles dest with disks := (gs1.poles dest).disks ++ [d0] } :=
        (Function.update_noteq (Ne.symm hsd) _ _).trans (Function.update_same _ _ _)
      have hg2other : ∀ p : Fin 3, p ≠ src → p ≠ dest →
          (Function.update (Function.update gs1.poles dest
            { gs1.poles dest with disks := (gs1.poles dest).disks ++ [d0] }) src
            { gs1.poles src with disks := b }) p = gs1.poles p :=
        fun p hps hpd => (Function.update_noteq hps _ _).trans (Function.update_noteq hpd _ _)
      set U := Function.update (Function.update gs1.poles dest
          { gs1.poles dest with disks := (gs1.poles dest).disks ++ [d0] }) src
          { gs1.poles src with disks := b } with hU
      -- second recursive call: move the subtower from the spare onto dest
      obtain ⟨gs3, hrun3, hg3sp, hg3dest, hg3other, hg3layers, hg3moves⟩ :=
        IH (k + 1) (by omega) (get_spare src dest) dest hsp_dest
          ⟨U, gs1.num_layers, gs1.num_moves + 1⟩
          ((gs.poles (get_spare src dest)).disks) t1
          (by omega)
          (by
            show (U (get_spare src dest)).disks = _
            rw [hg2other (get_spare src dest) hsp_src hsp_dest, hg1sp])
          hlen1
          hdec2.2
          (fun d hd e he => hspare (by omega) d hd e (List.mem_cons_of_mem _ he))
          (by
            show ∀ d ∈ (U dest).disks, ∀ e ∈ t1, e.size < d.size
            rw [hg2dest, hg1dest]
            intro d hd e he
            rcases List.mem_append.mp hd with h | h
            · exact hdest d h e (List.mem_cons_of_mem _ he)
            · have : d = d0 := by simpa using h
              subst this
              exact hd0_gt e he)
          (by
            intro _
            rw [hsp3]
            show ∀ d ∈ (U src).disks, ∀ e ∈ t1, e.size < d.size
            rw [hg2src]
            intro d hd e he
            exact hb d hd e (List.mem_cons_of_mem _ he))
          (by
            show (U (get_spare src dest)).disks.length ≤ (U (get_spare src dest)).size
            rw [hg2other (get_spare src dest) hsp_src hsp_dest, hg1sp]
            have h := hcspare (by omega)
            have hsub : k + 2 - 1 = k + 1 := rfl
            rw [hsub] at h
            simp only [List.length_append]
            omega)
          (by
            show (U dest).disks.length + (k + 1) ≤ (U dest).size
            rw [hg2dest, hg1dest]
            simp only [List.length_append, List.length_singleton]
            omega)
          (by
            intro _
            rw [hsp3]
            show (U src).disks.length + k ≤ (U src).size
            rw [hg2src, hg1src]
            show b.length + k ≤ (gs.poles src).size
            have hl : (gs.poles src).disks.length = b.length + (k + 2) := by
              rw [hsrc]
              simp [hlen1]
            omega)
      -- assemble the three runs
      have hrunA : run gs (move_stack (k + 1) src (get_spare src dest) ++ [(src, dest)]) =
          .ok ⟨U, gs1.num_layers, gs1.num_moves + 1⟩ := by
        rw [run_append_ok hrun1]
        show (match move_disk gs1 src dest with
          | .ok gs2 => run gs2 []
          | .error e => .error e) = _
        rw [hmv2]
        rfl
      refine ⟨gs3, ?_, ?_, ?_, ?_, ?_, ?_⟩
      · show run gs ((move_stack (k + 1) src (get_spare src dest) ++ [(src, dest)]) ++
          move_stack (k + 1) (get_spare src dest) dest) = .ok gs3
        rw [run_append_ok hrunA]
        exact hrun3
      · rw [hg3other src (Ne.symm hsp_src) hsd]
        show U src = _
        rw [hg2src, hg1src]
      · rw [hg3dest]
        show ({ (U dest) with disks := (U dest).disks ++ t1 } : Pole) = _
        rw [hg2dest, hg1dest]
        show ({ gs.poles dest with disks := ((gs.poles dest).disks ++ [d0]) ++ t1 } : Pole) = _
        rw [← List.append_cons]
      · intro p hps hpd
        have hp : p = get_spare src dest := by
          rcases get_spare_cases src dest hsd p with h | h | h
          · exact absurd h hps
          · exact absurd h hpd
          · exact h
        subst hp
        rw [hg3sp]
        show ({ (U (get_spare src dest)) with
          disks := (gs.poles (get_spare src dest)).disks } : Pole) = _
        rw [hg2other (get_spare src dest) hsp_src hsp_dest, hg1sp]
      · rw [hg3layers]
        exact hg1layers
      · rw [hg3moves]
        have hpow : (2 : Nat) ^ (k + 2) = 2 ^ (k + 1) + 2 ^ (k + 1) := by ring
        have hone : 1 ≤ (2 : Nat) ^ (k + 1) := Nat.one_le_two_pow
        show gs1.num_moves + 1 + (2 ^ (k + 1) - 1) = _
        omega



theorem dropLast_append_getLastD {α : Type _} :
    ∀ (l : List α) (dflt : α), l ≠ [] → l.dropLast ++ [l.getLastD dflt] = l := by
  intro l
  induction l with
  | nil => intro _ h; exact absurd rfl h
  | cons x t ih =>
    intro dflt _
    cases t with
    | nil => simp [List.getLastD]
    | cons y t2 =>
      rw [List.getLastD_cons]
      have := ih x (by simp)
      simp only [List.dropLast_cons₂, List.cons_append]
      rw [this]

theorem pairwise_getLastD_le (l : List Disk) (dflt : Disk)
    (h : l.Pairwise fun a c => c.size < a.size) :
    ∀ u ∈ l, (l.getLastD dflt).size ≤ u.size := by
  induction l generalizing dflt with
  | nil => simp
  | cons x t ih =>
    intro u hu
    rcases List.mem_cons.mp hu with rfl | hut
    · cases t with
      | nil => simp [List.getLastD]
      | cons y t2 =>
        rw [List.getLastD_cons]
        have hmem := getLastD_mem (y :: t2) u (by simp)
        have := (List.pairwise_cons.mp h).1 _ hmem
        omega
    · cases t with
      | nil => simp at hut
      | cons y t2 =>
        rw [List.getLastD_cons]
        exact ih x (List.pairwise_cons.mp h).2 u hut

theorem move_disk_cases {gs gsf : GameState} {src dest : Fin 3}
    (h : move_disk gs src dest = .ok gsf) :
    gsf.num_layers = gs.num_layers ∧ gsf.num_moves = gs.num_moves + 1 ∧
    ((src = dest ∧ ∀ p : Fin 3, gsf.poles p = gs.poles p) ∨
     (src ≠ dest ∧ (gs.poles src).disks ≠ [] ∧
       (gs.poles dest).disks.length < (gs.poles dest).size ∧
       gsf.poles src = { gs.poles src with disks := (gs.poles src).disks.dropLast } ∧
       gsf.poles dest = { gs.poles dest with
         disks := (gs.poles dest).disks ++ [(gs.poles src).disks.getLastD defaultDisk] } ∧
       (∀ p : Fin 3, p ≠ src → p ≠ dest → gsf.poles p = gs.poles p) ∧
       ((gs.poles dest).disks = [] ∨
         ((gs.poles src).disks.getLastD defaultDisk).size ≤
           ((gs.poles dest).disks.getLastD defaultDisk).size))) := by
  unfold move_disk at h
  by_cases hempty : (gs.poles src).disks.length ≤ 0
  · rw [if_pos hempty] at h
    exact absurd h (by simp)
  rw [if_neg hempty] at h
  by_cases hfull : (gs.poles dest).disks.length ≥ (gs.poles dest).size
  · rw [if_pos hfull] at h
    exact absurd h (by simp)
  rw [if_neg hfull] at h
  have hne : (gs.poles src).disks ≠ [] := by
    intro hcontra
    rw [hcontra] at hempty
    simp at hempty
  by_cases hsd : src = dest
  · subst hsd
    simp only [Function.update_same, Function.update_idem, List.dropLast_concat] at h
    rw [show ({ gs.poles src with disks := (gs.poles src).disks } : Pole) = gs.poles src from rfl,
      Function.update_eq_self] at h
    split at h
    · split at h
      · exact absurd h (by simp)
      · obtain rfl : _ = gsf := (Except.ok.injEq _ _).mp h
        exact ⟨rfl, rfl, Or.inl ⟨rfl, fun p => rfl⟩⟩
    · obtain rfl : _ = gsf := (Except.ok.injEq _ _).mp h
      exact ⟨rfl, rfl, Or.inl ⟨rfl, fun p => rfl⟩⟩
  · simp only [Function.update_noteq hsd, Function.update_noteq (Ne.symm hsd),
      Function.update_same, List.dropLast_concat, List.getLastD_concat] at h
    split at h
    · rename_i hlen1
      split at h
      · exact absurd h (by simp)
      · rename_i hnotlt
        obtain rfl : _ = gsf := (Except.ok.injEq _ _).mp h
        refine ⟨rfl, rfl, Or.inr ⟨hsd, hne, by omega, Function.update_same _ _ _,
          (Function.update_noteq (Ne.symm hsd) _ _).trans (Function.update_same _ _ _),
          fun p hps hpd => (Function.update_noteq hps _ _).trans (Function.update_noteq hpd _ _),
          Or.inr (Nat.le_of_not_lt hnotlt)⟩⟩
    · rename_i hlen1
      obtain rfl : _ = gsf := (Except.ok.injEq _ _).mp h
      refine ⟨rfl, rfl, Or.inr ⟨hsd, hne, by omega, Function.update_same _ _ _,
        (Function.update_noteq (Ne.symm hsd) _ _).trans (Function.update_same _ _ _),
        fun p hps hpd => (Function.update_noteq hps _ _).trans (Function.update_noteq hpd _ _),
        Or.inl ?_⟩⟩
      have : (gs.poles dest).disks.length + 1 ≤ 1 := by
        simpa using Nat.le_of_not_lt hlen1
      exact List.eq_nil_of_length_eq_zero (by omega)


theorem sizes_nodup {gs : GameState} (hcon : conservation gs) : (all_sizes gs).Nodup :=
  hcon.nodup_iff.mpr ((List.nodup_range gs.num_layers).map fun a c h => by omega)

theorem sizes_disjoint {gs : GameState} (hcon : conservation gs) :
    ∀ p q : Fin 3, p ≠ q → ∀ a, a ∈ pole_sizes gs p → a ∉ pole_sizes gs q := by
  have hnd := sizes_nodup hcon
  simp only [all_sizes, List.nodup_append] at hnd
  obtain ⟨h0, ⟨h1, h2, d12⟩, d0⟩ := hnd
  intro p q hpq a hp hq
  fin_cases p <;> fin_cases q <;> simp only at hp hq
  · exact hpq rfl
  · exact d0 hp (List.mem_append_left _ hq)
  · exact d0 hp (List.mem_append_right _ hq)
  · exact d0 hq (List.mem_append_left _ hp)
  · exact hpq rfl
  · exact d12 hp hq
  · exact d0 hq (List.mem_append_right _ hp)
  · exact d12 hq hp
  · exact hpq rfl

theorem fin3_if_sum (s : Fin 3) (x : Nat) :
    (if (0 : Fin 3) = s then x else 0) +
      ((if (1 : Fin 3) = s then x else 0) + (if (2 : Fin 3) = s then x else 0)) = x := by
  fin_cases s <;> simp

theorem move_disk_preserves {gs gsf : GameState} {src dest : Fin 3}
    (h : move_disk gs src dest = .ok gsf)
    (hstk : stacking_ok gs) (hcon : conservation gs) :
    stacking_ok gsf ∧ conservation gsf ∧ gsf.num_layers = gs.num_layers := by
  obtain ⟨hlay, hmov, hcases⟩ := move_disk_cases h
  rcases hcases with ⟨rfl, hsame⟩ | ⟨hsd, hne, hcap, hsrc, hdest, hother, hok⟩
  · have hps : ∀ p, pole_sizes gsf p = pole_sizes gs p := by
      intro p
      simp [pole_sizes, hsame p]
    refine ⟨fun p => by rw [hps p]; exact hstk p, ?_, hlay⟩
    unfold conservation
    rw [hlay]
    unfold conservation at hcon
    simpa [all_sizes, hps 0, hps 1, hps 2] using hcon
  · -- a real move: src loses its top disk, which lands on dest
    set d := (gs.poles src).disks.getLastD defaultDisk with hd
    have hsplit : (gs.poles src).disks.dropLast ++ [d] = (gs.poles src).disks :=
      dropLast_append_getLastD _ _ hne
    have hdm : d ∈ (gs.poles src).disks := getLastD_mem _ _ hne
    -- the moved disk is strictly smaller than everything remaining on dest
    have hdlt : ∀ u ∈ (gs.poles dest).disks, d.size < u.size := by
      intro u hu
      rcases hok with hnil | hle
      · rw [hnil] at hu
        simp at hu
      · have hdiskpw : (gs.poles dest).disks.Pairwise fun a c => c.size < a.size :=
          (List.pairwise_map.mp (hstk dest))
        have hlast := pairwise_getLastD_le _ defaultDisk hdiskpw u hu
        have hnthis : d.size ∉ pole_sizes gs dest :=
          sizes_disjoint hcon src dest hsd d.size (List.mem_map_of_mem _ hdm)
        have hmemlast : ((gs.poles dest).disks.getLastD defaultDisk).size ∈ pole_sizes gs dest := by
          have : (gs.poles dest).disks ≠ [] := by
            intro hc
            rw [hc] at hu
            simp at hu
          exact List.mem_map_of_mem _ (getLastD_mem _ _ this)
        have : d.size ≠ ((gs.poles dest).disks.getLastD defaultDisk).size := by
          intro hc
          rw [hc] at hnthis
          exact hnthis hmemlast
        omega
    constructor
    · -- stacking is preserved on all three poles
      intro p
      by_cases hp1 : p = src
      · rw [hp1, pole_sizes, hsrc]
        exact ((hstk src).sublist ((List.dropLast_sublist _).map Disk.size))
      by_cases hp2 : p = dest
      · rw [hp2, pole_sizes, hdest]
        show (((gs.poles dest).disks ++ [d]).map Disk.size).Pairwise _
        rw [List.map_append]
        refine List.pairwise_append.mpr ⟨hstk dest, by simp, ?_⟩
        intro a ha c hc
        obtain ⟨u, hu, rfl⟩ := List.mem_map.mp ha
        have : c = d.size := by simpa using hc
        subst this
        exact hdlt u hu
      · rw [pole_sizes, hother p hp1 hp2]
        exact hstk p
    refine ⟨?_, hlay⟩
    -- conservation: the multiset of sizes is unchanged
    unfold conservation
    rw [hlay]
    refine List.Perm.trans ?_ hcon
    have hcnt : ∀ p : Fin 3, ∀ a : Nat,
        (pole_sizes gsf p).count a + (if p = src then ([d.size]).count a else 0) =
        (pole_sizes gs p).count a + (if p = dest then ([d.size]).count a else 0) := by
      intro p a
      by_cases h1 : p = src
      · rw [h1, if_pos rfl, if_neg hsd, pole_sizes, hsrc]
        show (((gs.poles src).disks.dropLast.map Disk.size).count a) + _ = _
        rw [← List.count_append,
          show (gs.poles src).disks.dropLast.map Disk.size ++ [d.size] =
            ((gs.poles src).disks.dropLast ++ [d]).map Disk.size by simp, hsplit]
        simp [pole_sizes]
      by_cases h2 : p = dest
      · rw [h2, if_neg (Ne.symm hsd), if_pos rfl, pole_sizes, hdest]
        show ((((gs.poles dest).disks ++ [d]).map Disk.size).count a) + 0 = _
        rw [List.map_append, List.count_append]
        simp [pole_sizes]
      · rw [if_neg h1, if_neg h2, pole_sizes, hother p h1 h2]
        simp [pole_sizes]
    apply List.perm_iff_count.mpr
    intro a
    simp only [all_sizes, List.count_append]
    have e0 := hcnt 0 a
    have e1 := hcnt 1 a
    have e2 := hcnt 2 a
    have hs := fin3_if_sum src (([d.size]).count a)
    have hd2 := fin3_if_sum dest (([d.size]).count a)
    omega


theorem run_preserves {ms : List (Fin 3 × Fin 3)} :
    ∀ {gs gsf : GameState}, run gs ms = .ok gsf → stacking_ok gs → conservation gs →
    stacking_ok gsf ∧ conservation gsf ∧ gsf.num_layers = gs.num_layers := by
  induction ms with
  | nil =>
    intro gs gsf h hstk hcon
    obtain rfl : gs = gsf := by simpa [run] using h
    exact ⟨hstk, hcon, rfl⟩
  | cons m ms ih =>
    intro gs gsf h hstk hcon
    rw [show run gs (m :: ms) = (match move_disk gs m.1 m.2 with
      | .ok gs1 => run gs1 ms
      | .error e => .error e) from rfl] at h
    cases hm : move_disk gs m.1 m.2 with
    | error e =>
      rw [hm] at h
      exact absurd h (by simp)
    | ok gs1 =>
      rw [hm] at h
      obtain ⟨hstk1, hcon1, hlay1⟩ := move_disk_preserves hm hstk hcon
      obtain ⟨hstk2, hcon2, hlay2⟩ := ih h hstk1 hcon1
      exact ⟨hstk2, hcon2, hlay2.trans hlay1⟩

theorem solve_runs_ok (N : Nat) (hN : 1 ≤ N) (gs : GameState)
    (hcap : ∀ p : Fin 3, (gs.poles p).size = N)
    (h0 : pole_sizes gs 0 = descList N)
    (h1 : (gs.poles 1).disks = [])
    (h2 : (gs.poles 2).disks = [])
    (hm : gs.num_moves = 0) :
    ∃ gsf, run gs (solve_hanoi N) = .ok gsf ∧
      gsf.num_moves = 2 ^ N - 1 ∧
      (gsf.poles 2).disks = (gs.poles 0).disks ∧
      pole_sizes gsf 2 = descList N ∧
      (gsf.poles 0).disks = [] ∧
      (gsf.poles 1).disks = [] := by
  have h02 : (0 : Fin 3) ≠ 2 := by decide
  have hsp : get_spare 0 2 = 1 := by decide
  have hlen : (gs.poles 0).disks.length = N := by
    have := congrArg List.length h0
    simpa [pole_sizes, descList_length] using this
  obtain ⟨gsf, hrun, hsrc, hdest, hother, hlayers, hmoves⟩ :=
    run_move_stack N 0 2 h02 gs [] ((gs.poles 0).disks) hN (by simp) hlen
      (by
        show (pole_sizes gs 0).Pairwise _
        rw [h0]
        exact descList_pairwise N)
      (by simp)
      (by rw [h2]; simp)
      (fun _ => by rw [hsp, h1]; simp)
      (by rw [hlen, hcap 0])
      (by rw [h2, hcap 2]; simp)
      (fun _ => by rw [hsp, h1, hcap 1]; simp)
  have hd2 : (gsf.poles 2).disks = (gs.poles 0).disks := by
    rw [hdest]
    show (gs.poles 2).disks ++ (gs.poles 0).disks = (gs.poles 0).disks
    rw [h2]
    simp
  refine ⟨gsf, hrun, ?_, hd2, ?_, ?_, ?_⟩
  · rw [hmoves, hm]
    omega
  · rw [pole_sizes, hd2]
    exact h0
  · rw [hsrc]
  · rw [hother 1 (by decide) (by decide), h1]

/-- C1: from the initial board (peg 0 holds disks of sizes N down to 1 bottom to top,
pegs 1 and 2 empty, every peg of capacity N, move counter 0), running the solver's
move sequence succeeds, the move counter ends at exactly 2^N - 1, peg 2 holds the
original disk stack of peg 0 (size N at the bottom, size 1 on top), and pegs 0 and 1
are empty. -/
theorem hanoi_C1 (N : Nat) (hN : 1 ≤ N) (gs : GameState)
    (hcap : ∀ p : Fin 3, (gs.poles p).size = N)
    (h0 : pole_sizes gs 0 = descList N)
    (h1 : (gs.poles 1).disks = [])
    (h2 : (gs.poles 2).disks = [])
    (hm : gs.num_moves = 0) :
    ∃ gsf, run gs (solve_hanoi N) = .ok gsf ∧
      gsf.num_moves = 2 ^ N - 1 ∧
      (gsf.poles 2).disks = (gs.poles 0).disks ∧
      pole_sizes gsf 2 = descList N ∧
      (gsf.poles 0).disks = [] ∧
      (gsf.poles 1).disks = [] :=
  solve_runs_ok N hN gs hcap h0 h1 h2 hm

/-- Concrete two-disk initial board used by several witnesses: peg 0 holds sizes 2, 1,
pegs 1 and 2 are empty, all capacities are 2. -/
def gsInit2 : GameState :=
  { poles := fun p => if p = 0 then { size := 2, disks :=
      [{ size := 2, color := defaultColor }, { size := 1, color := defaultColor }] }
      else { size := 2, disks := [] },
    num_layers := 2, num_moves := 0 }

/-- Witness for C1: the theorem applied to the concrete two-disk board. -/
theorem hanoi_C1_witness :
    ∃ gsf, run gsInit2 (solve_hanoi 2) = .ok gsf ∧
      gsf.num_moves = 2 ^ 2 - 1 ∧
      (gsf.poles 2).disks = (gsInit2.poles 0).disks ∧
      pole_sizes gsf 2 = descList 2 ∧
      (gsf.poles 0).disks = [] ∧
      (gsf.poles 1).disks = [] :=
  hanoi_C1 2 (by decide) gsInit2 (by decide) (by decide) (by decide) (by decide) (by decide)

/-- C2: along the solver's move sequence, every observable state (the initial state
and the state after each executed move) keeps every peg strictly decreasing in size
from bottom to top and keeps the multiset of disk sizes equal to 1, ..., N. -/
theorem hanoi_C2 (N : Nat) (hN : 1 ≤ N) (gs : GameState)
    (hlay : gs.num_layers = N)
    (hcap : ∀ p : Fin 3, (gs.poles p).size = N)
    (h0 : pole_sizes gs 0 = descList N)
    (h1 : (gs.poles 1).disks = [])
    (h2 : (gs.poles 2).disks = [])
    (hm : gs.num_moves = 0) :
    ∀ l r : List (Fin 3 × Fin 3), solve_hanoi N = l ++ r →
      ∃ g, run gs l = .ok g ∧ stacking_ok g ∧ conservation g := by
  have hstk0 : stacking_ok gs := by
    intro p
    fin_cases p
    · rw [show pole_sizes gs ⟨0, by omega⟩ = pole_sizes gs 0 from rfl, h0]
      exact descList_pairwise N
    · rw [show pole_sizes gs ⟨1, by omega⟩ = pole_sizes gs 1 from rfl, pole_sizes, h1]
      simp
    · rw [show pole_sizes gs ⟨2, by omega⟩ = pole_sizes gs 2 from rfl, pole_sizes, h2]
      simp
  have hcon0 : conservation gs := by
    unfold conservation
    rw [hlay, all_sizes, h0, pole_sizes, pole_sizes, h1, h2]
    simpa using descList_perm N
  obtain ⟨gsf, hrun, -, -, -, -, -⟩ := solve_runs_ok N hN gs hcap h0 h1 h2 hm
  intro l r heq
  rw [heq] at hrun
  obtain ⟨g, hgl, -⟩ := run_prefix_ok hrun
  obtain ⟨hstk, hcon, -⟩ := run_preserves hgl hstk0 hcon0
  exact ⟨g, hgl, hstk, hcon⟩


/-- Witness for C2: stacking and conservation hold after the first two moves of the
two-disk run. -/
theorem hanoi_C2_witness :
    ∃ g, run gsInit2 [(0, 1), (0, 2)] = .ok g ∧ stacking_ok g ∧ conservation g :=
  hanoi_C2 2 (by decide) gsInit2 (by decide) (by decide) (by decide) (by decide) (by decide)
    (by decide) [(0, 1), (0, 2)] [(1, 2)] (by decide)


/-- Modelled from the spec's selection policy: step = max(1, floor(L / (n - 1))) when
n > 1 and step = 0 when n = 1; compared below with the source's colormap_increment. -/
def spec_color_step (n len : Nat) : Nat :=
  if n = 1 then 0 else max 1 (len / (n - 1))

theorem colormap_increment_eq (N len : Nat) :
    colormap_increment N len = if N = 1 then 1 else max 1 (len / (N - 1)) := by
  unfold colormap_increment
  by_cases h : N = 1
  · simp [h]
  · simp only [h, if_false, Nat.max_def]
    split <;> split <;> omega

theorem colormap_index_eq_spec (N len i : Nat) (hN : 1 ≤ N) (hlen : 1 ≤ len) (hi : i < N) :
    colormap_index N len i = ((min (i * spec_color_step N len) (len - 1) : Nat) : Int) := by
  unfold colormap_index spec_color_step
  rw [colormap_increment_eq]
  by_cases h1 : N = 1
  · obtain rfl : i = 0 := by omega
    simp only [h1, if_true, if_pos rfl]
    simp
    omega
  · simp only [h1, if_false]
    rw [Nat.mul_comm i (max 1 (len / (N - 1))), ← Int.natCast_mul]
    generalize (max 1 (len / (N - 1))) * i = P
    split <;> omega

theorem colormap_at_coe (cmap : ColorMap) (n : Nat) :
    colormap_at cmap (n : Int) = cmap.colors.get? n := by
  unfold colormap_at
  rw [if_pos (Int.natCast_nonneg n), Int.toNat_natCast]

theorem colormap_index_bounds (N len i : Nat) (hN : 1 ≤ N) (hlen : 1 ≤ len) :
    0 ≤ colormap_index N len i ∧ colormap_index N len i < (len : Int) := by
  simp only [colormap_index]
  have hP : 0 ≤ (colormap_increment N len : Int) * i :=
    mul_nonneg (Int.natCast_nonneg _) (Int.natCast_nonneg _)
  split <;> omega

theorem build_disks_isSome (N : Nat) (cmap : ColorMap) :
    ∀ l : List Nat,
      (∀ i ∈ l, (colormap_at cmap (colormap_index N cmap.length i)).isSome = true) →
      (build_disks N cmap l).isSome = true := by
  intro l
  induction l with
  | nil => intro _; simp [build_disks]
  | cons i is ih =>
    intro h
    have h1 := h i (by simp)
    have h2 := ih fun j hj => h j (by simp [hj])
    unfold build_disks
    cases hc : colormap_at cmap (colormap_index N cmap.length i) with
    | none => rw [hc] at h1; simp at h1
    | some c =>
      cases hb : build_disks N cmap is with
      | none => rw [hb] at h2; simp at h2
      | some ds => simp

theorem build_disks_get (N : Nat) (cmap : ColorMap) :
    ∀ (l : List Nat) (ds : List Disk), build_disks N cmap l = some ds →
      ds.length = l.length ∧
      ∀ j i0, l.get? j = some i0 → ∃ c : Color,
        ds.get? j = some { size := N - i0, color := c } ∧
        colormap_at cmap (colormap_index N cmap.length i0) = some c := by
  intro l
  induction l with
  | nil =>
    intro ds h
    obtain rfl : ds = [] := by
      have : some [] = some ds := by simpa [build_disks] using h
      simpa using this.symm
    refine ⟨rfl, ?_⟩
    intro j i0 hj
    simp at hj
  | cons i is ih =>
    intro ds h
    unfold build_disks at h
    cases hc : colormap_at cmap (colormap_index N cmap.length i) with
    | none => rw [hc] at h; simp at h
    | some c =>
      rw [hc] at h
      cases hb : build_disks N cmap is with
      | none => rw [hb] at h; simp at h
      | some ds1 =>
        rw [hb] at h
        obtain rfl : { size := N - i, color := c } :: ds1 = ds := by simpa using h
        obtain ⟨hlen1, hget1⟩ := ih ds1 hb
        refine ⟨by simp [hlen1], ?_⟩
        intro j i0 hj
        cases j with
        | zero =>
          obtain rfl : i = i0 := by simpa using hj
          exact ⟨c, by simp, hc⟩
        | succ j1 =>
          have hj1 : is.get? j1 = some i0 := by simpa using hj
          obtain ⟨c1, hc1, hc2⟩ := hget1 j1 i0 hj1
          exact ⟨c1, by simpa using hc1, hc2⟩

/-- C10 (safety): with a nonempty colormap, every colormap index computed during board
initialization lies in 0 .. length - 1, so every sample access of the fill loop is in
bounds and initialize_poles succeeds. -/
theorem hanoi_C10 (cmap : ColorMap) (hL : 1 ≤ cmap.length) (N : Nat) (hN : 1 ≤ N) :
    (∀ i, i < N →
      0 ≤ colormap_index N cmap.length i ∧
      colormap_index N cmap.length i < (cmap.length : Int)) ∧
    (initialize_poles N cmap).isSome = true := by
  refine ⟨fun i _ => colormap_index_bounds N cmap.length i hN hL, ?_⟩
  have hsome : (build_disks N cmap (List.range N)).isSome = true := by
    apply build_disks_isSome
    intro i _
    obtain ⟨hge, hlt⟩ := colormap_index_bounds N cmap.length i hN hL
    unfold colormap_at
    rw [if_pos hge]
    have hbd : (colormap_index N cmap.length i).toNat < cmap.colors.length := by
      show (colormap_index N cmap.length i).toNat < cmap.length
      omega
    simp [List.getElem?_eq_getElem hbd]
  unfold initialize_poles
  cases hb : build_disks N cmap (List.range N) with
  | none => rw [hb] at hsome; simp at hsome
  | some ds => simp

/-- Witness for C10: bounds and successful initialization for N = 4 over a length-10
colormap. -/
theorem hanoi_C10_witness :
    (∀ i, i < 4 →
      0 ≤ colormap_index 4 (ColorMap.mk ((List.range 10).map fun k =>
        { r := (k : Int), g := 0, b := 0 })).length i ∧
      colormap_index 4 (ColorMap.mk ((List.range 10).map fun k =>
        { r := (k : Int), g := 0, b := 0 })).length i <
        ((ColorMap.mk ((List.range 10).map fun k =>
          { r := (k : Int), g := 0, b := 0 })).length : Int)) ∧
    (initialize_poles 4 (ColorMap.mk ((List.range 10).map fun k =>
      { r := (k : Int), g := 0, b := 0 }))).isSome = true :=
  hanoi_C10 _ (by decide) 4 (by decide)


/-- C4: with a nonempty colormap, board initialization gives disk i (0 = bottom) the
size N - i and the colormap sample at position min(i * step, L - 1), where step is the
spec's selection policy (max(1, floor(L / (N - 1))) for N > 1 and 0 for N = 1); pole 0
receives exactly this disk list and poles 1 and 2 start empty. -/
theorem hanoi_C4 (cmap : ColorMap) (hL : 1 ≤ cmap.length) (N : Nat) (hN : 1 ≤ N)
    (ds : List Disk) (hds : build_disks N cmap (List.range N) = some ds) :
    initialize_poles N cmap = some (fun p => if p = 0 then { size := N, disks := ds }
      else { size := N, disks := [] }) ∧
    ∀ i, i < N → ∃ c : Color,
      ds.get? i = some { size := N - i, color := c } ∧
      cmap.colors.get? (min (i * spec_color_step N cmap.length) (cmap.length - 1)) = some c := by
  constructor
  · unfold initialize_poles
    rw [hds]
  · intro i hi
    obtain ⟨-, hget⟩ := build_disks_get N cmap (List.range N) ds hds
    obtain ⟨c, hc1, hc2⟩ := hget i i (by
      simp [List.get?_eq_getElem?, List.getElem?_range hi])
    refine ⟨c, hc1, ?_⟩
    rw [colormap_index_eq_spec N cmap.length i hN hL hi, colormap_at_coe] at hc2
    exact hc2

/-- Concrete length-10 colormap with pairwise distinct samples. -/
def cmap10 : ColorMap :=
  { colors := (List.range 10).map fun k => { r := (k : Int), g := 0, b := 0 } }

/-- The disk list initialization builds for N = 4 over cmap10: samples 0, 3, 6, 9. -/
def ds4 : List Disk :=
  [{ size := 4, color := { r := 0, g := 0, b := 0 } },
   { size := 3, color := { r := 3, g := 0, b := 0 } },
   { size := 2, color := { r := 6, g := 0, b := 0 } },
   { size := 1, color := { r := 9, g := 0, b := 0 } }]

/-- Witness for C4: the theorem applied at N = 4 with the length-10 colormap; the top
disk (index 3) receives the sample at min(3 * 3, 9) = 9. -/
theorem hanoi_C4_witness :
    initialize_poles 4 cmap10 = some (fun p => if p = 0 then { size := 4, disks := ds4 }
      else { size := 4, disks := [] }) ∧
    ∃ c : Color, ds4.get? 3 = some { size := 1, color := c } ∧
      cmap10.colors.get? (min (3 * spec_color_step 4 cmap10.length) (cmap10.length - 1)) = some c :=
  ⟨(hanoi_C4 cmap10 (by decide) 4 (by decide) ds4 (by decide)).1,
   (hanoi_C4 cmap10 (by decide) 4 (by decide) ds4 (by decide)).2 3 (by decide)⟩

/-- C5 (code bug): the spec requires board initialization to reject an empty colormap
(message to standard error, exit 1), but the code only rejects the loader's length -1
failure marker.  With length 0 the fill loop clamps every index to length - 1 = -1 and
reads colormap.colors[-1], an out-of-bounds access that is undefined behavior in C,
modelled here as initialize_poles returning none instead of an error exit. -/
theorem hanoi_C5 :
    colormap_index 1 0 0 = -1 ∧
    colormap_index 2 0 1 = -1 ∧
    initialize_poles 1 { colors := [] } = none ∧
    initialize_poles 2 { colors := [] } = none :=
  ⟨by decide, by decide, rfl, rfl⟩


/-- Board state after the first move of the two-disk game: peg 0 holds the size-2 disk,
peg 1 the size-1 disk, peg 2 is empty; one move has been counted. -/
def midState2 : GameState :=
  { poles := fun p =>
      if p = 0 then { size := 2, disks := [{ size := 2, color := defaultColor }] }
      else if p = 1 then { size := 2, disks := [{ size := 1, color := defaultColor }] }
      else { size := 2, disks := [] },
    num_layers := 2, num_moves := 1 }

/-- Counterexample to C6 as stated: the call move(0, 0) violates the src ≠ dst
precondition, yet move_disk returns normally with every stack unchanged and the move
counter incremented from 1 to 2 — the violation is silently performed rather than
signalled. -/
theorem hanoi_C6_counterexample :
    (move_disk midState2 0 0).toOption.map
      (fun g => (pole_sizes g 0, pole_sizes g 1, pole_sizes g 2, g.num_moves)) =
      some ([2], [1], [], 2) := by decide

/-- C6 amended: move_disk checks only that the source peg is nonempty and the
destination peg is not full, erroring out (redraw, stderr message, exit 1, modelled as
the error value carrying the redrawn state) before mutating anything; after performing
a move it also errors out if the moved disk is strictly larger than the disk now under
it, with the redrawn state showing the completed move and counter; but src = dst is
not checked: on a well-stacked nonempty non-full peg such a call is silently executed
as a no-op that increments the move counter. -/
theorem hanoi_C6 (gs : GameState) (src dest : Fin 3) :
    ((gs.poles src).disks = [] → move_disk gs src dest = .error (.srcEmpty, gs)) ∧
    ((gs.poles src).disks ≠ [] → (gs.poles dest).size ≤ (gs.poles dest).disks.length →
      move_disk gs src dest = .error (.destFull, gs)) ∧
    (src = dest → (gs.poles src).disks ≠ [] →
      (gs.poles src).disks.length < (gs.poles src).size →
      ((pole_sizes gs src).Pairwise fun a c => c < a) →
      ∃ g, move_disk gs src dest = .ok g ∧
        (∀ p : Fin 3, (g.poles p).disks = (gs.poles p).disks) ∧
        g.num_moves = gs.num_moves + 1) ∧
    (src ≠ dest → (gs.poles src).disks ≠ [] →
      (gs.poles dest).disks.length < (gs.poles dest).size →
      ∀ u, (gs.poles dest).disks.getLast? = some u →
        u.size < ((gs.poles src).disks.getLastD defaultDisk).size →
        ∃ g, move_disk gs src dest = .error (.illegal, g) ∧
          (g.poles dest).disks = (gs.poles dest).disks ++
            [(gs.poles src).disks.getLastD defaultDisk] ∧
          g.num_moves = gs.num_moves + 1) := by
  refine ⟨?_, ?_, ?_, ?_⟩
  · intro h
    unfold move_disk
    rw [if_pos (by rw [h]; simp)]
  · intro hne hfull
    unfold move_disk
    rw [if_neg (by simp [hne]), if_pos (by omega)]
  · intro hsd hne hcap hpw
    subst hsd
    unfold move_disk
    rw [if_neg (by simp [hne]), if_neg (by omega)]
    simp only [Function.update_same, Function.update_idem, List.dropLast_concat]
    rw [show ({ gs.poles src with disks := (gs.poles src).disks } : Pole) = gs.poles src from rfl,
      Function.update_eq_self]
    have hdiskpw : (gs.poles src).disks.Pairwise fun a c => c.size < a.size :=
      List.pairwise_map.mp hpw
    by_cases hlen : 1 < (gs.poles src).disks.length
    · rw [if_pos hlen]
      have hdne : (gs.poles src).disks.dropLast ≠ [] := by
        intro hc
        have := congrArg List.length hc
        simp [List.length_dropLast] at this
        omega
      have hmem : (gs.poles src).disks.dropLast.getLastD defaultDisk ∈ (gs.poles src).disks :=
        (List.dropLast_sublist _).mem (getLastD_mem _ _ hdne)
      have hle := pairwise_getLastD_le _ defaultDisk hdiskpw _ hmem
      rw [if_neg (by omega)]
      exact ⟨_, rfl, fun p => rfl, rfl⟩
    · rw [if_neg hlen]
      exact ⟨_, rfl, fun p => rfl, rfl⟩
  · intro hsd hne hcap u hu hlt
    unfold move_disk
    rw [if_neg (by simp [hne]), if_neg (by omega)]
    simp only [Function.update_noteq hsd, Function.update_noteq (Ne.symm hsd),
      Function.update_same, List.dropLast_concat, List.getLastD_concat]
    have hdne : (gs.poles dest).disks ≠ [] := by
      intro hc
      rw [hc] at hu
      simp at hu
    rw [if_pos (by
      simp only [List.length_append, List.length_singleton]
      have := List.length_pos.mpr hdne
      omega)]
    rw [if_pos (by
      rw [List.getLastD_eq_getLast?, hu]
      exact hlt)]
    refine ⟨_, rfl, ?_, rfl⟩
    show (Function.update (Function.update gs.poles dest _) src _ dest).disks = _
    rw [Function.update_noteq (Ne.symm hsd), Function.update_same]

/-- Witness for the amended C6: the silent src = dst no-op on the concrete mid-game
two-disk state. -/
theorem hanoi_C6_witness :
    ∃ g, move_disk midState2 0 0 = .ok g ∧
      (∀ p : Fin 3, (g.poles p).disks = (midState2.poles p).disks) ∧
      g.num_moves = midState2.num_moves + 1 :=
  (hanoi_C6 midState2 0 0).2.2.1 rfl (by decide) (by decide) (by decide)


/-- The platform constant LONG_MAX, 2^63 - 1 on the 64-bit targets the program is
built for. -/
def LONG_MAX : Int := 9223372036854775807

/-- The platform constant LONG_MIN, -2^63. -/
def LONG_MIN : Int := -9223372036854775808

/-- The platform constant INT_MAX, 2^31 - 1. -/
def INT_MAX : Int := 2147483647

/-- Whitespace in the C locale, as skipped by strtol. -/
def isSpaceB (c : Char) : Bool :=
  c = ' ' || c = '\t' || c = '\n' || c = '\x0b' || c = '\x0c' || c = '\r'

/-- Value of a run of decimal digits, most significant first. -/
def digitsVal (l : List Char) : Nat :=
  l.foldl (fun acc c => acc * 10 + (c.toNat - 48)) 0

/-- Drops the single optional sign character strtol consumes. -/
def dropSign (l : List Char) : List Char :=
  match l with
  | c :: rest => if c = '-' || c = '+' then rest else l
  | [] => []

/-- Whether strtol saw a minus sign. -/
def signIsNeg (l : List Char) : Bool :=
  match l with
  | c :: _ => c = '-'
  | [] => false

/-- Models C strtol(arg, &end, 10): skip C-locale whitespace, consume one optional
sign and then the maximal run of decimal digits.  If there are no digits the value is
0 and end points back at the start of the original string; otherwise the exact value
is clamped into [LONG_MIN, LONG_MAX] (the overflow return values of strtol). -/
def strtol10 (s : List Char) : Int × List Char :=
  let afterWs := s.dropWhile isSpaceB
  let digits := (dropSign afterWs).takeWhile Char.isDigit
  let rest := (dropSign afterWs).dropWhile Char.isDigit
  if digits = [] then (0, s)
  else
    let v : Int :=
      if signIsNeg afterWs then -(digitsVal digits : Int) else (digitsVal digits : Int)
    (if v < LONG_MIN then LONG_MIN else if LONG_MAX < v then LONG_MAX else v, rest)

/-- string_to_num_layers: strtol, then reject LONG_MIN/LONG_MAX results, trailing
characters, values at most 0, and values above INT_MAX; -1 (with a printed error)
signals rejection exactly as in the C code. -/
def string_to_num_layers (arg : List Char) : Int :=
  let r := strtol10 arg
  if r.1 = LONG_MIN ∨ r.1 = LONG_MAX then -1
  else if r.2 ≠ [] then -1
  else if r.1 ≤ 0 then -1
  else if INT_MAX < r.1 then -1
  else r.1

/-- Decimal integer string with one optional leading sign, the claim's accepted
shape. -/
def isPureIntString (s : List Char) : Bool :=
  match s with
  | [] => false
  | c :: rest =>
    if c = '-' || c = '+' then !rest.isEmpty && rest.all Char.isDigit
    else (c :: rest).all Char.isDigit

/-- Value denoted by a pure decimal integer string with optional sign. -/
def pureIntValue (s : List Char) : Int :=
  match s with
  | [] => 0
  | c :: rest =>
    if c = '-' then -(digitsVal rest : Int)
    else if c = '+' then (digitsVal rest : Int)
    else (digitsVal (c :: rest) : Int)

/-- Acceptance predicate of the amended claim: optional C whitespace, then a pure
signed decimal integer string whose value lies in 1 .. INT_MAX. -/
def acceptedNumLayers (s : List Char) : Bool :=
  let t := s.dropWhile isSpaceB
  isPureIntString t && (decide (1 ≤ pureIntValue t) && decide (pureIntValue t ≤ INT_MAX))


theorem strtol10_no_digits {s : List Char}
    (h : (dropSign (s.dropWhile isSpaceB)).takeWhile Char.isDigit = []) :
    strtol10 s = (0, s) := by
  simp only [strtol10]
  rw [if_pos h]

theorem stnl_no_digits (s : List Char)
    (hdig : (dropSign (s.dropWhile isSpaceB)).takeWhile Char.isDigit = []) :
    string_to_num_layers s = -1 := by
  have hst := strtol10_no_digits hdig
  simp only [string_to_num_layers, hst]
  by_cases hse : s = []
  · subst hse
    norm_num [LONG_MIN, LONG_MAX]
  · norm_num [LONG_MIN, LONG_MAX, hse]

theorem stnl_trailing (s : List Char)
    (hdig : (dropSign (s.dropWhile isSpaceB)).takeWhile Char.isDigit ≠ [])
    (hrest : (dropSign (s.dropWhile isSpaceB)).dropWhile Char.isDigit ≠ []) :
    string_to_num_layers s = -1 := by
  simp only [string_to_num_layers, strtol10]
  rw [if_neg hdig, if_pos hrest]
  exact ite_self _

theorem stnl_value {s : List Char} {v : Int}
    (hdig : (dropSign (s.dropWhile isSpaceB)).takeWhile Char.isDigit ≠ [])
    (hrest : (dropSign (s.dropWhile isSpaceB)).dropWhile Char.isDigit = [])
    (hv : (if signIsNeg (s.dropWhile isSpaceB) then
        -(digitsVal ((dropSign (s.dropWhile isSpaceB)).takeWhile Char.isDigit) : Int)
      else (digitsVal ((dropSign (s.dropWhile isSpaceB)).takeWhile Char.isDigit) : Int)) = v) :
    string_to_num_layers s = if 1 ≤ v ∧ v ≤ INT_MAX then v else -1 := by
  have hst : strtol10 s =
      ((if v < LONG_MIN then LONG_MIN else if LONG_MAX < v then LONG_MAX else v),
        (dropSign (s.dropWhile isSpaceB)).dropWhile Char.isDigit) := by
    simp only [strtol10]
    rw [if_neg hdig, hv]
  simp only [string_to_num_layers, hst, hrest]
  unfold LONG_MIN LONG_MAX INT_MAX
  split_ifs <;> first | rfl | omega | simp_all

theorem stnl_of_pure (s : List Char)
    (hpure : isPureIntString (s.dropWhile isSpaceB) = true) :
    string_to_num_layers s =
      if 1 ≤ pureIntValue (s.dropWhile isSpaceB) ∧
          pureIntValue (s.dropWhile isSpaceB) ≤ INT_MAX
      then pureIntValue (s.dropWhile isSpaceB) else -1 := by
  cases ht : s.dropWhile isSpaceB with
  | nil =>
    rw [ht] at hpure
    simp [isPureIntString] at hpure
  | cons c rest =>
    rw [ht] at hpure
    have hpure2 : (if (c = '-' || c = '+') = true then !rest.isEmpty && rest.all Char.isDigit
        else (c :: rest).all Char.isDigit) = true := hpure
    have hsn : signIsNeg (s.dropWhile isSpaceB) = decide (c = '-') := by
      rw [ht]
      rfl
    by_cases hsgn : (c = '-' || c = '+') = true
    · rw [if_pos hsgn] at hpure2
      simp only [Bool.and_eq_true, Bool.not_eq_true'] at hpure2
      obtain ⟨hr_ne, hall⟩ := hpure2
      have hrne : rest ≠ [] := by
        intro hc
        rw [hc] at hr_ne
        simp at hr_ne
      have hallP : ∀ x ∈ rest, Char.isDigit x = true := List.all_eq_true.mp hall
      have hds : dropSign (s.dropWhile isSpaceB) = rest := by
        rw [ht]
        show (if (c = '-' || c = '+') = true then rest else c :: rest) = rest
        rw [if_pos hsgn]
      have htw : (dropSign (s.dropWhile isSpaceB)).takeWhile Char.isDigit = rest := by
        rw [hds, List.takeWhile_eq_self_iff.mpr hallP]
      have hdw : (dropSign (s.dropWhile isSpaceB)).dropWhile Char.isDigit = [] := by
        rw [hds, List.dropWhile_eq_nil_iff.mpr hallP]
      have hval := stnl_value
        (v := if c = '-' then -(digitsVal rest : Int) else (digitsVal rest : Int))
        (by rw [htw]; exact hrne)
        hdw
        (by
          rw [htw, hsn]
          by_cases hc : c = '-'
          · simp [hc]
          · simp [hc])
      rw [hval]
      have hpv : pureIntValue (c :: rest) =
          if c = '-' then -(digitsVal rest : Int) else (digitsVal rest : Int) := by
        show (if c = '-' then -(digitsVal rest : Int)
          else if c = '+' then (digitsVal rest : Int) else (digitsVal (c :: rest) : Int)) = _
        by_cases hc : c = '-'
        · rw [if_pos hc, if_pos hc]
        · rw [if_neg hc, if_neg hc]
          have hcp : c = '+' := by
            rcases Bool.or_eq_true_iff.mp hsgn with h | h
            · exact absurd (of_decide_eq_true h) hc
            · exact of_decide_eq_true h
          rw [if_pos hcp]
      rw [hpv]
    · rw [if_neg hsgn] at hpure2
      have hallP : ∀ x ∈ c :: rest, Char.isDigit x = true := List.all_eq_true.mp hpure2
      have hcne : c ≠ '-' := by
        intro hc
        apply hsgn
        rw [hc]
        simp
      have hcp : c ≠ '+' := by
        intro hc
        apply hsgn
        rw [hc]
        simp
      have hds : dropSign (s.dropWhile isSpaceB) = c :: rest := by
        rw [ht]
        show (if (c = '-' || c = '+') = true then rest else c :: rest) = c :: rest
        rw [if_neg hsgn]
      have htw : (dropSign (s.dropWhile isSpaceB)).takeWhile Char.isDigit = c :: rest := by
        rw [hds, List.takeWhile_eq_self_iff.mpr hallP]
      have hdw : (dropSign (s.dropWhile isSpaceB)).dropWhile Char.isDigit = [] := by
        rw [hds, List.dropWhile_eq_nil_iff.mpr hallP]
      have hval := stnl_value (v := (digitsVal (c :: rest) : Int))
        (by rw [htw]; simp)
        hdw
        (by
          rw [htw, hsn]
          simp [hcne])
      rw [hval]
      have hpv : pureIntValue (c :: rest) = (digitsVal (c :: rest) : Int) := by
        show (if c = '-' then -(digitsVal rest : Int)
          else if c = '+' then (digitsVal rest : Int) else (digitsVal (c :: rest) : Int)) = _
        rw [if_neg hcne, if_neg hcp]
      rw [hpv]


theorem stnl_of_impure (s : List Char)
    (h : isPureIntString (s.dropWhile isSpaceB) = false) :
    string_to_num_layers s = -1 := by
  cases ht : s.dropWhile isSpaceB with
  | nil =>
    apply stnl_no_digits
    rw [ht]
    rfl
  | cons c rest =>
    rw [ht] at h
    have h2 : (if (c = '-' || c = '+') = true then !rest.isEmpty && rest.all Char.isDigit
        else (c :: rest).all Char.isDigit) = false := h
    by_cases hsgn : (c = '-' || c = '+') = true
    · rw [if_pos hsgn] at h2
      have hds : dropSign (s.dropWhile isSpaceB) = rest := by
        rw [ht]
        show (if (c = '-' || c = '+') = true then rest else c :: rest) = rest
        rw [if_pos hsgn]
      by_cases hemp : rest = []
      · apply stnl_no_digits
        rw [hds, hemp]
        rfl
      · have hall : rest.all Char.isDigit = false := by
          rcases Bool.and_eq_false_iff.mp h2 with he | ha
          · exfalso
            apply hemp
            cases rest with
            | nil => rfl
            | cons a l => simp at he
          · exact ha
        have hrest_ne : rest.dropWhile Char.isDigit ≠ [] := by
          intro hc
          have hforall := List.dropWhile_eq_nil_iff.mp hc
          have : rest.all Char.isDigit = true := List.all_eq_true.mpr hforall
          rw [this] at hall
          simp at hall
        by_cases hdig : rest.takeWhile Char.isDigit = []
        · apply stnl_no_digits
          rw [hds]
          exact hdig
        · apply stnl_trailing
          · rw [hds]
            exact hdig
          · rw [hds]
            exact hrest_ne
    · rw [if_neg hsgn] at h2
      have hds : dropSign (s.dropWhile isSpaceB) = c :: rest := by
        rw [ht]
        show (if (c = '-' || c = '+') = true then rest else c :: rest) = c :: rest
        rw [if_neg hsgn]
      have hrest_ne : (c :: rest).dropWhile Char.isDigit ≠ [] := by
        intro hc
        have hforall := List.dropWhile_eq_nil_iff.mp hc
        have : (c :: rest).all Char.isDigit = true := List.all_eq_true.mpr hforall
        rw [this] at h2
        simp at h2
      by_cases hdig : (c :: rest).takeWhile Char.isDigit = []
      · apply stnl_no_digits
        rw [hds]
        exact hdig
      · apply stnl_trailing
        · rw [hds]
          exact hdig
        · rw [hds]
          exact hrest_ne

/-- Counterexample to C9 as stated: the argument " 1" (a space then the digit 1) is
not a decimal integer string with optional sign, yet parsing accepts it and returns 1,
because strtol skips leading whitespace. -/
theorem hanoi_C9_counterexample :
    string_to_num_layers [' ', '1'] = 1 ∧ isPureIntString [' ', '1'] = false := by
  constructor
  · decide
  · decide

/-- C9 amended: parsing accepts exactly the strings made of optional C-locale
whitespace, then an optional single sign, then decimal digits, whose value lies in
1 .. 2^31 - 1, returning that value; every other string is rejected with the error
marker -1, on which main prints an error and exits with status 1; in particular
"abc", "0" and "-3" are rejected and "5" parses to 5. -/
theorem hanoi_C9 :
    (∀ s : List Char,
      (acceptedNumLayers s = true →
        string_to_num_layers s = pureIntValue (s.dropWhile isSpaceB) ∧
        1 ≤ string_to_num_layers s ∧ string_to_num_layers s ≤ INT_MAX) ∧
      (acceptedNumLayers s = false → string_to_num_layers s = -1)) ∧
    string_to_num_layers ("abc".data) = -1 ∧
    string_to_num_layers ("0".data) = -1 ∧
    string_to_num_layers ("-3".data) = -1 ∧
    string_to_num_layers ("5".data) = 5 := by
  refine ⟨?_, by decide, by decide, by decide, by decide⟩
  intro s
  constructor
  · intro hacc
    unfold acceptedNumLayers at hacc
    simp only [Bool.and_eq_true, decide_eq_true_eq] at hacc
    obtain ⟨hpure, hge, hle⟩ := hacc
    have h := stnl_of_pure s hpure
    rw [if_pos ⟨hge, hle⟩] at h
    refine ⟨h, ?_, ?_⟩
    · rw [h]
      exact hge
    · rw [h]
      exact hle
  · intro hacc
    by_cases hpure : isPureIntString (s.dropWhile isSpaceB) = true
    · have h := stnl_of_pure s hpure
      simp only [acceptedNumLayers, hpure, Bool.true_and, Bool.and_eq_false_iff,
        decide_eq_false_iff_not] at hacc
      rw [if_neg (by
        intro ⟨h1, h2⟩
        rcases hacc with ha | ha
        · exact ha h1
        · exact ha h2)] at h
      exact h
    · exact stnl_of_impure s (by simpa using hpure)

/-- Witness for the amended C9: the accepted input "17" parses to its value 17, which
lies in range. -/
theorem hanoi_C9_witness :
    string_to_num_layers ("17".data) = pureIntValue (("17".data).dropWhile isSpaceB) ∧
    1 ≤ string_to_num_layers ("17".data) ∧ string_to_num_layers ("17".data) ≤ INT_MAX :=
  (hanoi_C9.1 ("17".data)).1 (by decide)


/-- Decimal digit printer with structural fuel (fuel n + 1 always suffices, since the
value shrinks by a factor of ten each step); models what C printf %d emits for a
nonnegative value. -/
def decimalCore : Nat → Nat → List Char
  | 0, _ => []
  | fuel + 1, n =>
    if n < 10 then [Nat.digitChar n]
    else decimalCore fuel (n / 10) ++ [Nat.digitChar (n % 10)]

/-- The decimal rendering of n, as C printf %d. -/
def decimal (n : Nat) : List Char := decimalCore (n + 1) n

theorem decimalCore_safe (fuel : Nat) :
    ∀ n, ∀ c ∈ decimalCore fuel n, c ≠ 'm' ∧ c ≠ '\x1b' := by
  induction fuel with
  | zero =>
    intro n c hc
    simp [decimalCore] at hc
  | succ f ih =>
    intro n c hc
    have hdigit : ∀ d : Nat, d < 10 → Nat.digitChar d ≠ 'm' ∧ Nat.digitChar d ≠ '\x1b' := by
      decide
    rw [show decimalCore (f + 1) n = if n < 10 then [Nat.digitChar n]
      else decimalCore f (n / 10) ++ [Nat.digitChar (n % 10)] from rfl] at hc
    by_cases h : n < 10
    · rw [if_pos h] at hc
      obtain rfl : c = Nat.digitChar n := by simpa using hc
      exact hdigit n h
    · rw [if_neg h] at hc
      rcases List.mem_append.mp hc with h1 | h2
      · exact ih _ c h1
      · obtain rfl : c = Nat.digitChar (n % 10) := by simpa using h2
        exact hdigit _ (Nat.mod_lt _ (by omega))

theorem decimal_safe (n : Nat) : ∀ c ∈ decimal n, c ≠ 'm' ∧ c ≠ '\x1b' :=
  decimalCore_safe (n + 1) n

/-- Body of the truecolor SGR sequence between the initial ESC and the final m:
[38;2;R;G;B in ASCII. -/
def sgr_set_body (c : Color) : List Char :=
  '[' :: '3' :: '8' :: ';' :: '2' :: ';' ::
    (decimal c.r.toNat ++ ';' :: decimal c.g.toNat ++ ';' :: decimal c.b.toNat)

/-- The color-set escape "\033[38;2;R;G;Bm" of print_repeat_color. -/
def sgr_set (c : Color) : List Char := '\x1b' :: sgr_set_body c ++ ['m']

/-- The color-reset escape "\033[0;0m" of print_repeat_color. -/
def sgr_reset : List Char := '\x1b' :: '[' :: '0' :: ';' :: '0' :: ['m']

/-- print_repeat: the string printed count times (a negative C count prints nothing,
matching Nat subtraction at the call sites). -/
def print_repeat (s : List Char) (count : Nat) : List Char :=
  (List.replicate count s).flatten

/-- print_repeat_color: the colored string set-escape ++ s ++ reset-escape is built
once and printed count times. -/
def print_repeat_color (s : List Char) (count : Nat) (color : Color) : List Char :=
  (List.replicate count (sgr_set color ++ s ++ sgr_reset)).flatten

/-- render_layer_pole: one pole's field in one row; an empty layer is spaces, the rod
and spaces, a disk layer is spaces, the colored run of # glyphs, and spaces. -/
def render_layer_pole (pole : Pole) (num_layers layer : Nat) : List Char :=
  if pole.disks.length ≤ layer then
    print_repeat [' '] (num_layers - 1) ++ ('|' :: print_repeat [' '] (num_layers - 1))
  else
    print_repeat [' '] (num_layers - (pole.disks.getD layer defaultDisk).size) ++
      (print_repeat_color ['#'] ((pole.disks.getD layer defaultDisk).size * 2 - 1)
        (pole.disks.getD layer defaultDisk).color ++
        print_repeat [' '] (num_layers - (pole.disks.getD layer defaultDisk).size))

/-- render_layer: the NUM_POLES = 3 loop unrolled, with the three-space separator
printed after poles 0 and 1. -/
def render_layer (gs : GameState) (layer : Nat) : List Char :=
  render_layer_pole (gs.poles 0) gs.num_layers layer ++
    (print_repeat [' '] 3 ++
      (render_layer_pole (gs.poles 1) gs.num_layers layer ++
        (print_repeat [' '] 3 ++
          render_layer_pole (gs.poles 2) gs.num_layers layer)))

/-- Strips ANSI SGR sequences: outside an escape, an ESC byte enters escape mode;
inside, everything through the terminating m is dropped.  The Bool is the
inside-an-escape flag. -/
def stripSGRAux : Bool → List Char → List Char
  | _, [] => []
  | false, c :: cs => if c = '\x1b' then stripSGRAux true cs else c :: stripSGRAux false cs
  | true, c :: cs => if c = 'm' then stripSGRAux false cs else stripSGRAux true cs

/-- Visible characters of a chunk of terminal output: everything outside SGR
escapes. -/
def stripSGR (l : List Char) : List Char := stripSGRAux false l


theorem stripSGRAux_clean_append {xs : List Char} (h : ∀ c ∈ xs, c ≠ '\x1b') (ys : List Char) :
    stripSGRAux false (xs ++ ys) = xs ++ stripSGRAux false ys := by
  induction xs with
  | nil => rfl
  | cons c cs ih =>
    rw [List.cons_append,
      show stripSGRAux false (c :: (cs ++ ys)) =
        if c = '\x1b' then stripSGRAux true (cs ++ ys)
        else c :: stripSGRAux false (cs ++ ys) from rfl,
      if_neg (h c (by simp))]
    rw [ih fun a ha => h a (by simp [ha]), List.cons_append]

theorem stripSGRAux_esc {xs : List Char} (h : ∀ c ∈ xs, c ≠ 'm') (ys : List Char) :
    stripSGRAux true (xs ++ 'm' :: ys) = stripSGRAux false ys := by
  induction xs with
  | nil =>
    rw [List.nil_append,
      show stripSGRAux true ('m' :: ys) =
        if 'm' = 'm' then stripSGRAux false ys else stripSGRAux true ys from rfl,
      if_pos rfl]
  | cons c cs ih =>
    rw [List.cons_append,
      show stripSGRAux true (c :: (cs ++ 'm' :: ys)) =
        if c = 'm' then stripSGRAux false (cs ++ 'm' :: ys)
        else stripSGRAux true (cs ++ 'm' :: ys) from rfl,
      if_neg (h c (by simp))]
    exact ih fun a ha => h a (by simp [ha])

theorem sgr_set_body_safe (c : Color) : ∀ a ∈ sgr_set_body c, a ≠ 'm' := by
  intro a ha
  have hd : ∀ n, a ∈ decimal n → a ≠ 'm' := fun n h => (decimal_safe n a h).1
  unfold sgr_set_body at ha
  simp only [List.mem_cons, List.mem_append] at ha
  rcases ha with rfl | rfl | rfl | rfl | rfl | rfl | ha
  · decide
  · decide
  · decide
  · decide
  · decide
  · decide
  · rcases ha with ha | ha
    · rcases ha with h | ha
      · exact hd _ h
      rcases ha with rfl | h
      · decide
      · exact hd _ h
    · rcases ha with rfl | h
      · decide
      · exact hd _ h

theorem strip_sgr_set (c : Color) (ys : List Char) :
    stripSGRAux false (sgr_set c ++ ys) = stripSGRAux false ys := by
  unfold sgr_set
  rw [List.append_assoc, List.cons_append, List.singleton_append,
    show stripSGRAux false ('\x1b' :: (sgr_set_body c ++ 'm' :: ys)) =
      if ('\x1b' : Char) = '\x1b' then stripSGRAux true (sgr_set_body c ++ 'm' :: ys)
      else '\x1b' :: stripSGRAux false (sgr_set_body c ++ 'm' :: ys) from rfl,
    if_pos rfl]
  exact stripSGRAux_esc (sgr_set_body_safe c) ys

theorem strip_sgr_reset (ys : List Char) :
    stripSGRAux false (sgr_reset ++ ys) = stripSGRAux false ys := by
  show stripSGRAux false (('\x1b' :: (['[', '0', ';', '0'] ++ ['m'])) ++ ys) = _
  rw [List.cons_append, List.append_assoc, List.singleton_append,
    show stripSGRAux false ('\x1b' :: (['[', '0', ';', '0'] ++ 'm' :: ys)) =
      if ('\x1b' : Char) = '\x1b' then stripSGRAux true (['[', '0', ';', '0'] ++ 'm' :: ys)
      else '\x1b' :: stripSGRAux false (['[', '0', ';', '0'] ++ 'm' :: ys) from rfl,
    if_pos rfl]
  exact stripSGRAux_esc (by decide) ys

theorem strip_color_unit {s : List Char} (hs : ∀ c ∈ s, c ≠ '\x1b') (col : Color)
    (ys : List Char) :
    stripSGRAux false ((sgr_set col ++ s ++ sgr_reset) ++ ys) = s ++ stripSGRAux false ys := by
  rw [List.append_assoc, List.append_assoc, strip_sgr_set,
    stripSGRAux_clean_append hs, strip_sgr_reset]

theorem strip_print_repeat_color {s : List Char} (hs : ∀ c ∈ s, c ≠ '\x1b') (col : Color)
    (n : Nat) (ys : List Char) :
    stripSGRAux false (print_repeat_color s n col ++ ys) =
      (List.replicate n s).flatten ++ stripSGRAux false ys := by
  induction n with
  | zero => simp [print_repeat_color]
  | succ k ih =>
    rw [print_repeat_color, List.replicate_succ, List.flatten_cons, List.append_assoc,
      strip_color_unit hs]
    rw [show (List.replicate k (sgr_set col ++ s ++ sgr_reset)).flatten ++ ys =
      print_repeat_color s k col ++ ys from rfl, ih]
    rw [List.replicate_succ, List.flatten_cons, List.append_assoc]

theorem print_repeat_singleton (c : Char) (n : Nat) :
    print_repeat [c] n = List.replicate n c := by
  induction n with
  | zero => rfl
  | succ k ih =>
    rw [print_repeat, List.replicate_succ, List.flatten_cons,
      show (List.replicate k [c]).flatten = print_repeat [c] k from rfl, ih,
      List.singleton_append, ← List.replicate_succ]


/-- The visible (escape-free) field the claim describes for one peg at one layer:
an empty layer is num_layers - 1 spaces, the rod, num_layers - 1 spaces; a disk of
size s is num_layers - s spaces, 2s - 1 hash glyphs, num_layers - s spaces. -/
def visible_pole_field (pole : Pole) (num_layers layer : Nat) : List Char :=
  if pole.disks.length ≤ layer then
    List.replicate (num_layers - 1) ' ' ++
      ('|' :: List.replicate (num_layers - 1) ' ')
  else
    List.replicate (num_layers - (pole.disks.getD layer defaultDisk).size) ' ' ++
      (List.replicate ((pole.disks.getD layer defaultDisk).size * 2 - 1) '#' ++
        List.replicate (num_layers - (pole.disks.getD layer defaultDisk).size) ' ')

theorem strip_render_layer_pole (pole : Pole) (N layer : Nat) (ys : List Char) :
    stripSGRAux false (render_layer_pole pole N layer ++ ys) =
      visible_pole_field pole N layer ++ stripSGRAux false ys := by
  have hspace : ∀ k : Nat, ∀ c ∈ List.replicate k ' ', c ≠ '\x1b' := by
    intro k c hc
    obtain ⟨-, rfl⟩ := List.mem_replicate.mp hc
    decide
  unfold render_layer_pole visible_pole_field
  by_cases h : pole.disks.length ≤ layer
  · rw [if_pos h, if_pos h]
    simp only [print_repeat_singleton]
    refine stripSGRAux_clean_append ?_ ys
    intro c hc
    simp only [List.mem_append, List.mem_cons, List.mem_replicate] at hc
    rcases hc with ⟨-, rfl⟩ | rfl | ⟨-, rfl⟩ <;> decide
  · rw [if_neg h, if_neg h]
    simp only [print_repeat_singleton]
    rw [List.append_assoc, List.append_assoc,
      stripSGRAux_clean_append (hspace _),
      strip_print_repeat_color (by decide),
      show (List.replicate ((pole.disks.getD layer defaultDisk).size * 2 - 1) ['#']).flatten =
        List.replicate ((pole.disks.getD layer defaultDisk).size * 2 - 1) '#' from
        print_repeat_singleton '#' _,
      stripSGRAux_clean_append (hspace _)]
    simp [List.append_assoc]

theorem visible_pole_field_length (pole : Pole) (N layer : Nat) (hN : 1 ≤ N)
    (hsizes : ∀ d ∈ pole.disks, 1 ≤ d.size ∧ d.size ≤ N) :
    (visible_pole_field pole N layer).length = 2 * N - 1 := by
  unfold visible_pole_field
  by_cases h : pole.disks.length ≤ layer
  · rw [if_pos h]
    simp only [List.length_append, List.length_replicate, List.length_cons]
    omega
  · rw [if_neg h]
    have hmem : pole.disks.getD layer defaultDisk ∈ pole.disks := by
      rw [List.getD_eq_getElem?_getD]
      rw [List.getElem?_eq_getElem (by omega)]
      exact List.getElem_mem _
    obtain ⟨hs1, hs2⟩ := hsizes _ hmem
    simp only [List.length_append, List.length_replicate]
    omega


/-- C7: on a board of N disks whose disk sizes all lie in 1..N and whose pegs satisfy
the stacking invariant, every rendered board row is, after stripping SGR escapes,
exactly the three peg fields of the claim (each 2N - 1 characters: an empty layer is
N - 1 spaces, the rod, N - 1 spaces; a disk of size s is N - s spaces, 2s - 1 hash
glyphs, N - s spaces) separated by exactly 3 spaces, for a total of 6N + 3 visible
characters. -/
theorem hanoi_C7 (gs : GameState) (N : Nat) (hN : 1 ≤ N) (hlay : gs.num_layers = N)
    (hsizes : ∀ p : Fin 3, ∀ d ∈ (gs.poles p).disks, 1 ≤ d.size ∧ d.size ≤ N)
    (hstk : stacking_ok gs) (layer : Nat) (hlayer : layer < N) :
    stripSGR (render_layer gs layer) =
      visible_pole_field (gs.poles 0) N layer ++
        (List.replicate 3 ' ' ++
          (visible_pole_field (gs.poles 1) N layer ++
            (List.replicate 3 ' ' ++ visible_pole_field (gs.poles 2) N layer))) ∧
    (∀ p : Fin 3, (visible_pole_field (gs.poles p) N layer).length = 2 * N - 1) ∧
    (stripSGR (render_layer gs layer)).length = 6 * N + 3 := by
  have hsp : ∀ k : Nat, ∀ c ∈ List.replicate k ' ', c ≠ '\x1b' := by
    intro k c hc
    obtain ⟨-, rfl⟩ := List.mem_replicate.mp hc
    decide
  have hfields : ∀ p : Fin 3, (visible_pole_field (gs.poles p) N layer).length = 2 * N - 1 :=
    fun p => visible_pole_field_length _ N layer hN (hsizes p)
  have hmain : stripSGR (render_layer gs layer) =
      visible_pole_field (gs.poles 0) N layer ++
        (List.replicate 3 ' ' ++
          (visible_pole_field (gs.poles 1) N layer ++
            (List.replicate 3 ' ' ++ visible_pole_field (gs.poles 2) N layer))) := by
    unfold stripSGR render_layer
    rw [hlay]
    simp only [print_repeat_singleton]
    rw [show render_layer_pole (gs.poles 2) N layer =
      render_layer_pole (gs.poles 2) N layer ++ [] from (List.append_nil _).symm]
    rw [strip_render_layer_pole, stripSGRAux_clean_append (hsp 3),
      strip_render_layer_pole, stripSGRAux_clean_append (hsp 3),
      strip_render_layer_pole]
    simp [show stripSGRAux false ([] : List Char) = [] from rfl]
  refine ⟨hmain, hfields, ?_⟩
  rw [hmain]
  simp only [List.length_append, List.length_replicate, hfields 0, hfields 1, hfields 2]
  omega

/-- Witness for C7: the first board row of the concrete two-disk initial state. -/
theorem hanoi_C7_witness :
    stripSGR (render_layer gsInit2 0) =
      visible_pole_field (gsInit2.poles 0) 2 0 ++
        (List.replicate 3 ' ' ++
          (visible_pole_field (gsInit2.poles 1) 2 0 ++
            (List.replicate 3 ' ' ++ visible_pole_field (gsInit2.poles 2) 2 0))) ∧
    (∀ p : Fin 3, (visible_pole_field (gsInit2.poles p) 2 0).length = 2 * 2 - 1) ∧
    (stripSGR (render_layer gsInit2 0)).length = 6 * 2 + 3 :=
  hanoi_C7 gsInit2 2 (by decide) (by decide) (by decide) (by decide) 0 (by decide)


/-- One erase cycle of erase_drawing: cursor up (ESC[A), carriage return, erase to end
of screen (ESC[J). -/
def eraseCycle : List Char := ['\x1b', '[', 'A', '\r', '\x1b', '[', 'J']

/-- erase_drawing: the erase cycle printed once for each of the num_layers + 1 lines
of the previous frame. -/
def erase_drawing (num_layers : Nat) : List Char :=
  (List.replicate (num_layers + 1) eraseCycle).flatten

/-- draw: one frame - the header "Moves: k / total" (the C total (1l << num_layers) - 1
is 2 ^ num_layers - 1 over the range a run can traverse) and the board rows rendered
top-down, each ending in a newline.  The 1-second sleep produces no text. -/
def draw (gs : GameState) : List Char :=
  ("Moves: ".data) ++ decimal gs.num_moves ++ (" / ".data) ++
    decimal (2 ^ gs.num_layers - 1) ++
    ('\n' :: ((List.range gs.num_layers).reverse.map fun i => render_layer gs i ++ ['\n']).flatten)

/-- redraw: erase the previous frame in place, then draw the new one. -/
def redraw (gs : GameState) : List Char := erase_drawing gs.num_layers ++ draw gs

/-- Executes moves like run while collecting the frames move_disk's final redraw
writes after each successful move; a C error exit stops the stream. -/
def run_out (gs : GameState) :
    List (Fin 3 × Fin 3) → Except (MoveErr × GameState) (GameState × List Char)
  | [] => .ok (gs, [])
  | m :: ms =>
    match move_disk gs m.1 m.2 with
    | .error e => .error e
    | .ok gs1 =>
      match run_out gs1 ms with
      | .error e => .error e
      | .ok (g, out) => .ok (g, redraw gs1 ++ out)

/-- The full animation stream main produces: the initial draw, then the solver's
per-move redraws. -/
def animate (gs : GameState) : Except (MoveErr × GameState) (List Char) :=
  match run_out gs (solve_hanoi gs.num_layers) with
  | .error e => .error e
  | .ok (_, out) => .ok (draw gs ++ out)

theorem move_stack_length : ∀ (n : Nat) (src dest : Fin 3),
    (move_stack n src dest).length = 2 ^ n - 1 := by
  intro n
  induction n using Nat.strong_induction_on with
  | _ n IH =>
    intro src dest
    match n with
    | 0 => rfl
    | 1 => rfl
    | (k + 2) =>
      show (move_stack (k + 1) src (get_spare src dest) ++ [(src, dest)] ++
        move_stack (k + 1) (get_spare src dest) dest).length = _
      simp only [List.length_append, List.length_singleton,
        IH (k + 1) (by omega)]
      have hone : 1 ≤ (2 : Nat) ^ (k + 1) := Nat.one_le_two_pow
      have hpow : (2 : Nat) ^ (k + 2) = 2 ^ (k + 1) + 2 ^ (k + 1) := by ring
      omega

theorem move_disk_layers {gs g : GameState} {src dest : Fin 3}
    (h : move_disk gs src dest = .ok g) : g.num_layers = gs.num_layers :=
  (move_disk_cases h).1

theorem run_out_spec {ms : List (Fin 3 × Fin 3)} :
    ∀ {gs g : GameState}, run gs ms = .ok g →
    ∃ ss : List GameState, ss.length = ms.length ∧
      (∀ x ∈ ss, x.num_layers = gs.num_layers) ∧
      run_out gs ms = .ok (g, (ss.map redraw).flatten) := by
  induction ms with
  | nil =>
    intro gs g h
    obtain rfl : gs = g := by simpa [run] using h
    exact ⟨[], rfl, by simp, rfl⟩
  | cons m ms ih =>
    intro gs g h
    rw [show run gs (m :: ms) = (match move_disk gs m.1 m.2 with
      | .ok gs1 => run gs1 ms
      | .error e => .error e) from rfl] at h
    cases hm : move_disk gs m.1 m.2 with
    | error e =>
      rw [hm] at h
      exact absurd h (by simp)
    | ok gs1 =>
      rw [hm] at h
      obtain ⟨ss, hlen, hlayers, hout⟩ := ih h
      refine ⟨gs1 :: ss, by simp [hlen], ?_, ?_⟩
      · intro x hx
        rcases List.mem_cons.mp hx with rfl | hx
        · exact move_disk_layers hm
        · exact (hlayers x hx).trans (move_disk_layers hm)
      · rw [show run_out gs (m :: ms) = (match move_disk gs m.1 m.2 with
          | .error e => .error e
          | .ok gs1 => (match run_out gs1 ms with
            | .error e => .error e
            | .ok (g, out) => .ok (g, redraw gs1 ++ out))) from rfl, hm]
        show (match run_out gs1 ms with
          | Except.error e => Except.error e
          | Except.ok (g, out) => Except.ok (g, redraw gs1 ++ out)) = _
        rw [hout]
        rfl

/-- C8: a full run renders exactly (2^N - 1) + 1 frames: the initial frame is written
with no preceding erase, and each of the 2^N - 1 subsequent frames is preceded by
exactly N + 1 erase cycles, each cycle being cursor-up ESC[A, carriage return, and
erase-to-end-of-screen ESC[J. -/
theorem hanoi_C8 (N : Nat) (hN : 1 ≤ N) (gs : GameState)
    (hlay : gs.num_layers = N)
    (hcap : ∀ p : Fin 3, (gs.poles p).size = N)
    (h0 : pole_sizes gs 0 = descList N)
    (h1 : (gs.poles 1).disks = [])
    (h2 : (gs.poles 2).disks = [])
    (hm : gs.num_moves = 0) :
    ∃ ss : List GameState, ss.length = 2 ^ N - 1 ∧
      animate gs = .ok (draw gs ++ (ss.map fun s => erase_drawing N ++ draw s).flatten) ∧
      erase_drawing N = (List.replicate (N + 1) eraseCycle).flatten := by
  obtain ⟨gsf, hrun, -, -, -, -⟩ := solve_runs_ok N hN gs hcap h0 h1 h2 hm
  obtain ⟨ss, hslen, hlayers, hout⟩ := run_out_spec hrun
  refine ⟨ss, ?_, ?_, rfl⟩
  · rw [hslen]
    unfold solve_hanoi
    exact move_stack_length N 0 2
  · unfold animate
    rw [hlay, hout]
    have hmap : ss.map redraw = ss.map fun s => erase_drawing N ++ draw s := by
      apply List.map_congr_left
      intro x hx
      unfold redraw
      rw [hlayers x hx, hlay]
    rw [hmap]

/-- Witness for C8: the two-disk run renders 3 + 1 frames with 3 erase cycles before
each redraw. -/
theorem hanoi_C8_witness :
    ∃ ss : List GameState, ss.length = 2 ^ 2 - 1 ∧
      animate gsInit2 = .ok (draw gsInit2 ++
        (ss.map fun s => erase_drawing 2 ++ draw s).flatten) ∧
      erase_drawing 2 = (List.replicate (2 + 1) eraseCycle).flatten :=
  hanoi_C8 2 (by decide) gsInit2 (by decide) (by decide) (by decide) (by decide) (by decide)
    (by decide)

end Hanoi
